import Mathlib

/-!
# Verification of the vanilla-charts scale/layout/axis core

Shallow embedding of the scale, tick, chart-wrapper and pie-slice logic of
the vanilla-charts repository.  JavaScript numbers are modelled as exact
rationals (`ℚ`); the only places where IEEE behaviour matters for the claims
(division by zero producing NaN, `Number.isFinite`) are modelled explicitly
(`linearScaleEval`, `JSNum`).  Pie angles are linear in π, so they are stored
in units of π radians (`-Math.PI/2` becomes `-1/2`, the full turn `2π`
becomes `2`), which keeps all the angle arithmetic exact.
-/

namespace VanillaCharts

/-! ## Scales (src/charts/core — linearScale / bandScale) -/

/-- `linearScale(dMin, dMax, rMin, rMax)` from the source:
`d = dMax - dMin || 1; r = rMax - rMin; v => rMin + ((v - dMin) / d) * r`.
The JS `|| 1` replaces a zero span by `1`. -/
def linearScale (dMin dMax rMin rMax : ℚ) : ℚ → ℚ :=
  let d : ℚ := if dMax - dMin = 0 then 1 else dMax - dMin
  let r : ℚ := rMax - rMin
  fun v => rMin + ((v - dMin) / d) * r

/-- The same computation with the single division made fallible: the result is
`none` exactly when the divisor is zero, which is the one way the formula could
produce a non-finite value (NaN/Infinity) from finite inputs in JS. -/
def linearScaleEval (dMin dMax rMin rMax v : ℚ) : Option ℚ :=
  let d : ℚ := if dMax - dMin = 0 then 1 else dMax - dMin
  let r : ℚ := rMax - rMin
  if d = 0 then none else some (rMin + ((v - dMin) / d) * r)

/-- The object returned by `bandScale`: `{ getX, bandWidth, gapWidth }`. -/
structure BandScale where
  getX : String → ℚ
  bandWidth : ℚ
  gapWidth : ℚ

/-- Lookup in an association list built like a JS `Map` by successive
`Map.set`: a later entry for the same key overwrites an earlier one, so the
LAST matching entry wins; `none` when the key is absent. -/
def lookupLast (lab : String) : List (String × ℚ) → Option ℚ
  | [] => none
  | (k, v) :: rest =>
    match lookupLast lab rest with
    | some w => some w
    | none => if k = lab then some v else none

/-- `bandScale(labels, rMin, rMax, gapRatio = 0.2)` from the source:
`n = max(labels.length, 1)`, `totalGap = total * gapRatio`,
`gapWidth = totalGap / (n + 1)`, `barWidth = (total - totalGap) / n`,
positions `offset + i * (barWidth + gapWidth)` with `offset = rMin + gapWidth`,
`getX = lab => map.get(lab) ?? 0`. -/
def bandScale (labels : List String) (rMin rMax gapRatio : ℚ) : BandScale :=
  let n : ℚ := max (labels.length : ℚ) 1
  let total : ℚ := rMax - rMin
  let totalGap : ℚ := total * gapRatio
  let gapWidth : ℚ := totalGap / (n + 1)
  let barWidth : ℚ := (total - totalGap) / n
  let offset : ℚ := rMin + gapWidth
  let positions : List (String × ℚ) :=
    labels.enum.map (fun p => (p.2, offset + (p.1 : ℚ) * (barWidth + gapWidth)))
  { getX := fun lab => (lookupLast lab positions).getD 0
    bandWidth := barWidth
    gapWidth := gapWidth }

/-! ## Tick generation (src/charts/core/ticks.js) -/

/-- JS `Math.round`: round half toward positive infinity, `⌊q + 1/2⌋`. -/
def jsRound (q : ℚ) : ℚ := (⌊q + 1 / 2⌋ : ℤ)

/-- The arithmetic progression `start, start + s, …` of `n` terms, i.e. the
values pushed by the loop `for (v = start; …; v += s)` unrolled `n` times. -/
def arithTicks (s : ℚ) : ℚ → ℕ → List ℚ
  | _, 0 => []
  | start, n + 1 => start :: arithTicks s (start + s) n

/-- Number of iterations of the loop `for (v = start; v <= yMax; v += s)`
when `s > 0`: none if `start > yMax`, else `⌊(yMax - start) / s⌋ + 1`. -/
def stepCount (start s yMax : ℚ) : ℕ :=
  if start ≤ yMax then (⌊(yMax - start) / s⌋).toNat + 1 else 0

/-- The list produced by `for (let v = start; v <= yMax; v += step) arr.push(v)`
(for a positive step). -/
def stepTicks (start s yMax : ℚ) : List ℚ :=
  arithTicks s start (stepCount start s yMax)

/-- The endpoint fix-up of the `step` branch:
`if (arr[0] !== yMin) arr.unshift(yMin); if (arr[arr.length-1] !== yMax) arr.push(yMax)`.
(`arr[0]` of an empty array is `undefined`, which is `!== yMin`.) -/
def withEndpoints (yMin yMax : ℚ) (arr : List ℚ) : List ℚ :=
  let a2 : List ℚ := if arr.head? = some yMin then arr else yMin :: arr
  if a2.getLast? = some yMax then a2 else a2 ++ [yMax]

/-- The `YTicks` policy: an explicit list, `{ step }`, or `{ count }`. -/
inductive YTicks where
  | list (xs : List ℚ)
  | step (s : ℚ)
  | count (c : ℚ)

/-- `makeTicks(yMin, yMax, ticks)` from the source.  `none` models the
`!ticks` branch. -/
def makeTicks (yMin yMax : ℚ) (ticks : Option YTicks) : List ℚ :=
  match ticks with
  | none => [yMin, jsRound ((yMin + yMax) / 2), yMax]
  | some (.list xs) => xs
  | some (.step s0) =>
    let s : ℚ := max 1 s0
    let start : ℚ := (⌈yMin / s⌉ : ℤ) * s
    withEndpoints yMin yMax (stepTicks start s yMax)
  | some (.count c0) =>
    let c : ℤ := max 1 ⌊c0⌋
    (List.range (c.toNat + 1)).map
      (fun i : ℕ => jsRound (yMin + (yMax - yMin) * (i : ℚ) / (c : ℚ)))

/-! ## Chart wrapper lifecycle (src/charts/core/ChartWrapper.js, responsive
mode).  The debounce logic keeps at most one armed timer (each notification
that changes the stored width does `clearTimeout` before `setTimeout`), so the
pending timer is a single flag.  `destroy()` in the source only disconnects
the `ResizeObserver` and clears the container; it does NOT clear the pending
`resizeTimer` (which is not even in scope of `destroy`), so a pending timer
still fires and runs `doRender` — the model reproduces this. -/

/-- Observable state of a responsive chart wrapper between events. -/
structure WrapperState where
  currentWidth : ℚ
  pending : Bool
  destroyed : Bool
  renders : List ℚ
  rendersAfterDestroy : List ℚ
deriving DecidableEq, Repr

/-- External events driving the wrapper: a ResizeObserver notification with a
content width, the expiry of the armed 100ms debounce timer, and `destroy()`. -/
inductive WEvent where
  | resize (w : ℚ)
  | fire
  | destroy
deriving DecidableEq, Repr

/-- One event step of the wrapper.  `resize`: no notifications are delivered
after `destroy` (the observer is disconnected); otherwise clamp to `minWidth`,
and on a changed width store it and (re-)arm the timer.  `fire`: an armed
timer runs `doRender`, which reads the stored width and invokes the draw
callback — even if `destroy` already ran.  `destroy`: disconnects the
observer but leaves a pending timer armed, as in the source. -/
def wrapperStep (minWidth : ℚ) (s : WrapperState) : WEvent → WrapperState
  | .resize w =>
    if s.destroyed then s
    else
      let nw : ℚ := max w minWidth
      if nw ≠ s.currentWidth then { s with currentWidth := nw, pending := true } else s
  | .fire =>
    if s.pending then
      { s with
        pending := false
        renders := s.renders ++ [s.currentWidth]
        rendersAfterDestroy :=
          s.rendersAfterDestroy ++ (if s.destroyed then [s.currentWidth] else []) }
    else s
  | .destroy => { s with destroyed := true }

/-- Run a responsive wrapper (stored width starts at `w0`, the width measured
or defaulted at creation) over a sequence of events. -/
def runWrapper (minWidth w0 : ℚ) (evs : List WEvent) : WrapperState :=
  evs.foldl (wrapperStep minWidth) ⟨w0, false, false, [], []⟩

/-! ## Pie slices (src/charts/PieChart/PieChart.js, render).  Angles are in
units of π radians: the source starts at `-Math.PI / 2` (here `-1/2`) and a
full circle is `TAU = 2π` (here `2`). -/

/-- A JS number as seen by `Number.isFinite`: finite, NaN, or an infinity. -/
inductive JSNum where
  | fin (q : ℚ)
  | nan
  | inf
  | ninf
deriving DecidableEq, Repr

/-- `Number.isFinite(d.value) ? Math.max(0, d.value) : 0`. -/
def clampValue : JSNum → ℚ
  | .fin q => max 0 q
  | _ => 0

/-- A pie datum `{label, value}`. -/
structure PieDatum where
  label : String
  value : JSNum
deriving DecidableEq, Repr

/-- `validData`: clamp each value, keep only records with value `> 0`. -/
def validData (data : List PieDatum) : List (String × ℚ) :=
  (data.map (fun d => (d.label, clampValue d.value))).filter (fun p => 0 < p.2)

/-- `total = validData.reduce((acc, d) => acc + d.value, 0)`. -/
def pieTotal (data : List PieDatum) : ℚ :=
  (validData data).foldl (fun acc p => acc + p.2) 0

/-- One computed slice; `startAngle`/`endAngle` are in units of π radians. -/
structure Slice where
  label : String
  value : ℚ
  startAngle : ℚ
  endAngle : ℚ
  fraction : ℚ
deriving DecidableEq, Repr

/-- The cumulative-angle loop of the source:
`fraction = d.value / total; span = fraction * TAU; start = angle;
end = angle + span; angle = end` (with `TAU = 2` in units of π). -/
def buildSlices (total : ℚ) : ℚ → List (String × ℚ) → List Slice
  | _, [] => []
  | angle, (lab, v) :: rest =>
    let fraction : ℚ := v / total
    let e : ℚ := angle + fraction * 2
    ⟨lab, v, angle, e, fraction⟩ :: buildSlices total e rest

/-- The slice list: built only `if (validData.length > 0 && total > 0)`,
starting at the 12-o'clock angle `-π/2` (here `-1/2`). -/
def pieSlices (data : List PieDatum) : List Slice :=
  let vd := validData data
  let t := pieTotal data
  if 0 < vd.length ∧ 0 < t then buildSlices t (-(1 / 2)) vd else []

/-- What the pie render pass draws: the grey placeholder circle when the slice
list is empty, otherwise the slices. -/
inductive PieScene where
  | emptyRing
  | slices (ss : List Slice)
deriving DecidableEq, Repr

/-- `if (slices.length === 0) { …empty circle…; return; } …draw slices…`. -/
def pieScene (data : List PieDatum) : PieScene :=
  let ss := pieSlices data
  if ss.isEmpty then .emptyRing else .slices ss

/-! ## Helper lemmas: band scale positions -/

lemma lookupLast_enumFrom_not_mem (lab : String) (f : ℕ → ℚ) :
    ∀ (labels : List String) (k : ℕ), lab ∉ labels →
      lookupLast lab ((List.enumFrom k labels).map (fun p => (p.2, f p.1))) = none := by
  intro labels
  induction labels with
  | nil => intro k _; rfl
  | cons x xs ih =>
    intro k hmem
    have hx : x ≠ lab := fun h => hmem (h ▸ List.mem_cons_self x xs)
    have hxs : lab ∉ xs := fun h => hmem (List.mem_cons_of_mem x h)
    show lookupLast lab
        (List.map (fun p => (p.2, f p.1)) ((k, x) :: List.enumFrom (k + 1) xs)) = none
    simp only [List.map_cons, lookupLast, ih (k + 1) hxs, if_neg hx]

lemma lookupLast_enumFrom_get (f : ℕ → ℚ) :
    ∀ (labels : List String) (k : ℕ), labels.Nodup →
      ∀ (i : ℕ) (hi : i < labels.length),
        lookupLast (labels.get ⟨i, hi⟩)
            ((List.enumFrom k labels).map (fun p => (p.2, f p.1))) = some (f (k + i)) := by
  intro labels
  induction labels with
  | nil => intro k _ i hi; exact absurd hi (Nat.not_lt_zero i)
  | cons x xs ih =>
    intro k hnd i hi
    have hx : x ∉ xs := (List.nodup_cons.mp hnd).1
    have hxs : xs.Nodup := (List.nodup_cons.mp hnd).2
    cases i with
    | zero =>
      show lookupLast x
          (List.map (fun p => (p.2, f p.1)) ((k, x) :: List.enumFrom (k + 1) xs))
          = some (f (k + 0))
      simp [List.map_cons, lookupLast, lookupLast_enumFrom_not_mem x f xs (k + 1) hx]
    | succ j =>
      have hj : j < xs.length := Nat.lt_of_succ_lt_succ hi
      show lookupLast (xs.get ⟨j, hj⟩)
          (List.map (fun p => (p.2, f p.1)) ((k, x) :: List.enumFrom (k + 1) xs))
          = some (f (k + (j + 1)))
      have hlook := ih (k + 1) hxs j hj
      simp only [List.map_cons, lookupLast, hlook]
      congr 2
      omega

/-- The `getX` of the `i`-th label of a duplicate-free label list. -/
lemma bandScale_getX_get (labels : List String) (rMin rMax g : ℚ)
    (hnd : labels.Nodup) (i : ℕ) (hi : i < labels.length) :
    (bandScale labels rMin rMax g).getX (labels.get ⟨i, hi⟩)
      = rMin + (bandScale labels rMin rMax g).gapWidth
          + (i : ℚ) * ((bandScale labels rMin rMax g).bandWidth
              + (bandScale labels rMin rMax g).gapWidth) := by
  simp only [bandScale, List.enum]
  rw [lookupLast_enumFrom_get
    (fun j => rMin + (rMax - rMin) * g / ((max (labels.length : ℚ) 1) + 1)
      + (j : ℚ) * ((rMax - rMin - (rMax - rMin) * g) / (max (labels.length : ℚ) 1)
          + (rMax - rMin) * g / ((max (labels.length : ℚ) 1) + 1)))
    labels 0 hnd i hi]
  simp [Nat.zero_add]

/-- `getX` of a key that is not among the labels is the sentinel `0`. -/
lemma bandScale_getX_not_mem (labels : List String) (rMin rMax g : ℚ)
    (lab : String) (hmem : lab ∉ labels) :
    (bandScale labels rMin rMax g).getX lab = 0 := by
  simp only [bandScale, List.enum]
  rw [lookupLast_enumFrom_not_mem lab
    (fun j => rMin + (rMax - rMin) * g / ((max (labels.length : ℚ) 1) + 1)
      + (j : ℚ) * ((rMax - rMin - (rMax - rMin) * g) / (max (labels.length : ℚ) 1)
          + (rMax - rMin) * g / ((max (labels.length : ℚ) 1) + 1)))
    labels 0 hmem]
  rfl

/-- The band/gap partition identity, with no constraint on the gap ratio. -/
lemma bandScale_sum (labels : List String) (rMin rMax g : ℚ) :
    (bandScale labels rMin rMax g).bandWidth * (max (labels.length : ℚ) 1) +
      (bandScale labels rMin rMax g).gapWidth * ((max (labels.length : ℚ) 1) + 1)
      = rMax - rMin := by
  have hn : (0 : ℚ) < max (labels.length : ℚ) 1 :=
    lt_of_lt_of_le one_pos (le_max_right _ 1)
  have hn1 : (0 : ℚ) < max (labels.length : ℚ) 1 + 1 := by linarith
  simp only [bandScale]
  field_simp

/-! ## Claim theorems: linear scale -/

/-- C3 (amended): the function returned by `linearScale(dMin, dMax, rMin, rMax)`
maps `dMin` to `rMin` exactly, always, and maps `dMax` to `rMax` exactly
whenever `dMax ≠ dMin`.  (In the degenerate case `dMax = dMin` the guarded span
of `1` makes `dMax` map to `rMin`, not `rMax` — see the counterexample.) -/
theorem linearScale_endpoints (dMin dMax rMin rMax : ℚ) :
    linearScale dMin dMax rMin rMax dMin = rMin ∧
    (dMax ≠ dMin → linearScale dMin dMax rMin rMax dMax = rMax) := by
  constructor
  · simp [linearScale]
  · intro hne
    have hd : dMax - dMin ≠ 0 := sub_ne_zero_of_ne hne
    simp only [linearScale, if_neg hd]
    field_simp

/-- Witness for C3's amended theorem at `linearScale(0, 10, 50, 200)`. -/
theorem linearScale_endpoints_w :
    linearScale 0 10 50 200 0 = 50 ∧ linearScale 0 10 50 200 10 = 200 :=
  ⟨(linearScale_endpoints 0 10 50 200).1,
   (linearScale_endpoints 0 10 50 200).2 (by norm_num)⟩

/-- C3 counterexample: with `domainMin = domainMax = 0` and range `[50, 200]`,
the returned function maps `domainMax` (= 0) to `50`, not to `rangeEnd = 200`,
so the claim as stated (for EVERY `domainMin`, `domainMax`) is false. -/
theorem linearScale_endpoints_cex :
    ¬ (linearScale 0 0 50 200 0 = 200) := by
  norm_num [linearScale]

/-- C8: `linearScale(dMin, dMin, rMin, rMax)` replaces the zero span by `1`
(JS `dMax - dMin || 1`), so the single division never divides by zero: the
fallible evaluation always returns a value (never a NaN), equal to the span-one
formula, and in particular `linearScale(0, 0, 50, 200)` is well defined on
every finite input. -/
theorem linearScale_degenerate_total (dMin rMin rMax v : ℚ) :
    linearScaleEval dMin dMin rMin rMax v
        = some (rMin + ((v - dMin) / 1) * (rMax - rMin)) ∧
    (∀ dMax : ℚ, (linearScaleEval dMin dMax rMin rMax v).isSome = true) ∧
    (linearScaleEval 0 0 50 200 v).isSome = true := by
  refine ⟨by simp [linearScaleEval], fun dMax => ?_, by simp [linearScaleEval]⟩
  by_cases hd : dMax - dMin = 0 <;> simp [linearScaleEval, hd]

/-! ## Claim theorems: band scale -/

/-- C5: for `gapRatio ∈ [0, 1)` the band partition of `bandScale` is exact:
with `n = max(labelCount, 1)`, `bandWidth·n + gapWidth·(n+1) = rangeEnd -
rangeStart`; all bands share the single `bandWidth` and all `n+1` gaps
(the two edge gaps included) share the single `gapWidth`, which shows in the
positions: consecutive labels are exactly `bandWidth + gapWidth` apart. -/
theorem bandScale_partition (labels : List String) (rMin rMax g : ℚ)
    (h0 : 0 ≤ g) (h1 : g < 1) :
    (bandScale labels rMin rMax g).bandWidth * (max (labels.length : ℚ) 1) +
      (bandScale labels rMin rMax g).gapWidth * ((max (labels.length : ℚ) 1) + 1)
      = rMax - rMin ∧
    (∀ (hnd : labels.Nodup) (i : ℕ) (hi : i + 1 < labels.length),
      (bandScale labels rMin rMax g).getX (labels.get ⟨i + 1, hi⟩)
        - (bandScale labels rMin rMax g).getX (labels.get ⟨i, Nat.lt_of_succ_lt hi⟩)
        = (bandScale labels rMin rMax g).bandWidth
            + (bandScale labels rMin rMax g).gapWidth) := by
  refine ⟨bandScale_sum labels rMin rMax g, fun hnd i hi => ?_⟩
  rw [bandScale_getX_get labels rMin rMax g hnd (i + 1) hi,
    bandScale_getX_get labels rMin rMax g hnd i (Nat.lt_of_succ_lt hi)]
  push_cast
  ring

/-- Witness for C5 at `bandScale(["a","b"], 0, 100, 0.2)`. -/
theorem bandScale_partition_w :
    (0 : ℚ) ≤ 1 / 5 ∧ (1 / 5 : ℚ) < 1 ∧
    ((bandScale ["a", "b"] 0 100 (1 / 5)).bandWidth * (max (([ "a", "b"] : List String).length : ℚ) 1) +
      (bandScale ["a", "b"] 0 100 (1 / 5)).gapWidth * ((max ((["a", "b"] : List String).length : ℚ) 1) + 1)
      = 100 - 0) ∧
    ((bandScale ["a", "b"] 0 100 (1 / 5)).getX ((["a", "b"] : List String).get ⟨0 + 1, by norm_num⟩)
        - (bandScale ["a", "b"] 0 100 (1 / 5)).getX
            ((["a", "b"] : List String).get ⟨0, Nat.lt_of_succ_lt (by norm_num)⟩)
      = (bandScale ["a", "b"] 0 100 (1 / 5)).bandWidth
          + (bandScale ["a", "b"] 0 100 (1 / 5)).gapWidth) :=
  ⟨by norm_num, by norm_num,
   (bandScale_partition ["a", "b"] 0 100 (1 / 5) (by norm_num) (by norm_num)).1,
   (bandScale_partition ["a", "b"] 0 100 (1 / 5) (by norm_num) (by norm_num)).2
     (by simp) 0 (by norm_num)⟩

/-- C10: `bandScale` never clamps or validates `gapRatio`: the partition
identity `bandWidth·n + gapWidth·(n+1) = rangeEnd - rangeStart` (with
`n = max(labelCount, 1)`) holds exactly for EVERY rational `gapRatio`,
negative or above `1` included, and for `gapRatio > 1` on a forward range
the band width comes out negative. -/
theorem bandScale_no_clamp (labels : List String) (rMin rMax g : ℚ) :
    (bandScale labels rMin rMax g).bandWidth * (max (labels.length : ℚ) 1) +
      (bandScale labels rMin rMax g).gapWidth * ((max (labels.length : ℚ) 1) + 1)
      = rMax - rMin ∧
    (1 < g → rMin < rMax → (bandScale labels rMin rMax g).bandWidth < 0) := by
  refine ⟨bandScale_sum labels rMin rMax g, fun hg ht => ?_⟩
  have hn : (0 : ℚ) < max (labels.length : ℚ) 1 :=
    lt_of_lt_of_le one_pos (le_max_right _ 1)
  have htot : (0 : ℚ) < rMax - rMin := by linarith
  have hnum : rMax - rMin - (rMax - rMin) * g < 0 := by nlinarith
  simpa [bandScale] using div_neg_of_neg_of_pos hnum hn

/-- Witness for C10 at `bandScale(["a"], 0, 100, 2)`: the identity holds and
the band width is negative. -/
theorem bandScale_no_clamp_w :
    ((bandScale ["a"] 0 100 2).bandWidth * (max ((["a"] : List String).length : ℚ) 1) +
      (bandScale ["a"] 0 100 2).gapWidth * ((max ((["a"] : List String).length : ℚ) 1) + 1)
      = 100 - 0) ∧
    (bandScale ["a"] 0 100 2).bandWidth < 0 :=
  ⟨(bandScale_no_clamp ["a"] 0 100 2).1,
   (bandScale_no_clamp ["a"] 0 100 2).2 (by norm_num) (by norm_num)⟩

/-- C6: `getX` of the `i`-th label of a duplicate-free label list is
`rangeStart + gapWidth + i·(bandWidth + gapWidth)`; an unknown key returns the
sentinel `0` without any error; and on `bandScale(["a","b"], 0, 100, 0.2)`:
`bandWidth = 40`, `gapWidth = 20/3`, `getX "a" = 20/3`, `getX "b" = 160/3`. -/
theorem bandScale_getX_spec :
    (∀ (labels : List String) (rMin rMax g : ℚ) (hnd : labels.Nodup)
        (i : ℕ) (hi : i < labels.length),
      (bandScale labels rMin rMax g).getX (labels.get ⟨i, hi⟩)
        = rMin + (bandScale labels rMin rMax g).gapWidth
            + (i : ℚ) * ((bandScale labels rMin rMax g).bandWidth
                + (bandScale labels rMin rMax g).gapWidth)) ∧
    (∀ (labels : List String) (rMin rMax g : ℚ) (lab : String), lab ∉ labels →
      (bandScale labels rMin rMax g).getX lab = 0) ∧
    (bandScale ["a", "b"] 0 100 (1 / 5)).bandWidth = 40 ∧
    (bandScale ["a", "b"] 0 100 (1 / 5)).gapWidth = 20 / 3 ∧
    (bandScale ["a", "b"] 0 100 (1 / 5)).getX "a" = 20 / 3 ∧
    (bandScale ["a", "b"] 0 100 (1 / 5)).getX "b" = 160 / 3 := by
  refine ⟨bandScale_getX_get, bandScale_getX_not_mem, by norm_num [bandScale],
    by norm_num [bandScale], ?_, ?_⟩
  · have hba : ("b" = "a") = False := by simp
    simp only [bandScale, lookupLast, List.enum]
    norm_num [lookupLast, hba]
  · simp only [bandScale, lookupLast, List.enum]
    norm_num [lookupLast]

/-- Witness for C6: the position formula at the second label of
`bandScale(["x","y"], 10, 110, 0)` and the unknown-key sentinel there. -/
theorem bandScale_getX_spec_w :
    (bandScale ["x", "y"] 10 110 0).getX ((["x", "y"] : List String).get ⟨1, by norm_num⟩)
      = 10 + (bandScale ["x", "y"] 10 110 0).gapWidth
          + (1 : ℚ) * ((bandScale ["x", "y"] 10 110 0).bandWidth
              + (bandScale ["x", "y"] 10 110 0).gapWidth) ∧
    (bandScale ["x", "y"] 10 110 0).getX "zz" = 0 :=
  ⟨bandScale_getX_spec.1 ["x", "y"] 10 110 0 (by simp) 1 (by norm_num),
   bandScale_getX_spec.2.1 ["x", "y"] 10 110 0 "zz" (by simp)⟩

/-! ## Helper lemmas: tick generation -/

lemma arithTicks_head? (s start : ℚ) (n : ℕ) :
    (arithTicks s start (n + 1)).head? = some start := rfl

lemma arithTicks_chain' (s : ℚ) (hs : 0 < s) :
    ∀ (n : ℕ) (start : ℚ), List.Chain' (· < ·) (arithTicks s start n) := by
  intro n
  induction n with
  | zero => intro start; exact List.chain'_nil
  | succ m ih =>
    intro start
    rw [show arithTicks s start (m + 1) = start :: arithTicks s (start + s) m from rfl,
      List.chain'_cons']
    refine ⟨fun b hb => ?_, ih (start + s)⟩
    cases m with
    | zero => simp [arithTicks] at hb
    | succ k =>
      rw [arithTicks_head? s (start + s) k] at hb
      cases hb
      linarith

lemma arithTicks_mem (s : ℚ) :
    ∀ (n : ℕ) (start x : ℚ), x ∈ arithTicks s start n →
      ∃ i : ℕ, i < n ∧ x = start + (i : ℚ) * s := by
  intro n
  induction n with
  | zero => intro start x hx; simp [arithTicks] at hx
  | succ m ih =>
    intro start x hx
    rw [show arithTicks s start (m + 1) = start :: arithTicks s (start + s) m from rfl,
      List.mem_cons] at hx
    rcases hx with hx | hx
    · exact ⟨0, Nat.succ_pos m, by simp [hx]⟩
    · obtain ⟨i, hi, hxi⟩ := ih (start + s) x hx
      refine ⟨i + 1, Nat.succ_lt_succ hi, ?_⟩
      rw [hxi]
      push_cast
      ring

lemma arithTicks_getLast? (s : ℚ) :
    ∀ (n : ℕ) (start : ℚ),
      (arithTicks s start (n + 1)).getLast? = some (start + (n : ℚ) * s) := by
  intro n
  induction n with
  | zero => intro start; simp [arithTicks]
  | succ m ih =>
    intro start
    rw [show arithTicks s start (m + 1 + 1)
          = start :: arithTicks s (start + s) (m + 1) from rfl]
    rw [show (start :: arithTicks s (start + s) (m + 1)).getLast?
          = (arithTicks s (start + s) (m + 1)).getLast? by
        rw [show arithTicks s (start + s) (m + 1)
              = (start + s) :: arithTicks s (start + s + s) m from rfl]
        exact List.getLast?_cons_cons]
    rw [ih (start + s)]
    congr 1
    push_cast
    ring

/-- If the loop runs at all (`start ≤ yMax`), its last value is
`start + ⌊(yMax - start)/s⌋·s`, which is at most `yMax`. -/
lemma stepTicks_getLast? (start s yMax : ℚ) (hs : 0 < s) (h : start ≤ yMax) :
    (stepTicks start s yMax).getLast?
        = some (start + ((⌊(yMax - start) / s⌋).toNat : ℚ) * s) ∧
      start + ((⌊(yMax - start) / s⌋).toNat : ℚ) * s ≤ yMax := by
  have hfl : (0 : ℤ) ≤ ⌊(yMax - start) / s⌋ := by
    apply Int.floor_nonneg.mpr
    exact div_nonneg (by linarith) (le_of_lt hs)
  constructor
  · rw [stepTicks, stepCount, if_pos h]
    exact arithTicks_getLast? s _ start
  · have h1 : ((⌊(yMax - start) / s⌋).toNat : ℚ) ≤ (yMax - start) / s := by
      rw [show ((⌊(yMax - start) / s⌋).toNat : ℚ) = ((⌊(yMax - start) / s⌋ : ℤ) : ℚ) by
        norm_cast; omega]
      exact Int.floor_le _
    have h2 : ((⌊(yMax - start) / s⌋).toNat : ℚ) * s ≤ (yMax - start) / s * s :=
      mul_le_mul_of_nonneg_right h1 (le_of_lt hs)
    rw [div_mul_cancel₀ _ (ne_of_gt hs)] at h2
    linarith

/-- The endpoint fix-up turns any strictly increasing list whose values lie
between `yMin` (below its head) and `yMax` (above its last element) into a
strictly increasing list running exactly from `yMin` to `yMax`. -/
lemma withEndpoints_spec (yMin yMax : ℚ) (arr : List ℚ)
    (hch : List.Chain' (· < ·) arr) (hle : yMin ≤ yMax)
    (hhead : ∀ x ∈ arr.head?, yMin ≤ x)
    (hlast : ∀ x ∈ arr.getLast?, x ≤ yMax) :
    List.Chain' (· < ·) (withEndpoints yMin yMax arr) ∧
    (withEndpoints yMin yMax arr).head? = some yMin ∧
    (withEndpoints yMin yMax arr).getLast? = some yMax := by
  simp only [withEndpoints]
  by_cases h1 : arr.head? = some yMin
  · rw [if_pos h1]
    by_cases h2 : arr.getLast? = some yMax
    · rw [if_pos h2]
      exact ⟨hch, h1, h2⟩
    · rw [if_neg h2]
      cases harr : arr with
      | nil => rw [harr] at h1; cases h1
      | cons a t =>
        have hglt : ∀ x ∈ (a :: t).getLast?, x < yMax := by
          intro x hx
          have hx' : x ≤ yMax := hlast x (harr ▸ hx)
          have hxne : x ≠ yMax := by
            intro he
            exact h2 (by rw [harr, Option.mem_def.mp hx, he])
          exact lt_of_le_of_ne hx' hxne
        refine ⟨?_, ?_, ?_⟩
        · rw [List.chain'_append]
          exact ⟨harr ▸ hch, List.chain'_singleton yMax,
            fun x hx y hy => by
              rw [List.head?_cons, Option.mem_def, Option.some.injEq] at hy
              exact hy ▸ hglt x hx⟩
        · rw [List.cons_append, List.head?_cons]
          rw [harr, List.head?_cons] at h1
          exact h1
        · exact List.getLast?_concat _
  · rw [if_neg h1]
    have hcons : List.Chain' (· < ·) (yMin :: arr) := by
      rw [List.chain'_cons']
      refine ⟨fun b hb => ?_, hch⟩
      have hb' : yMin ≤ b := hhead b hb
      have hbne : b ≠ yMin := by
        intro he
        exact h1 (by rw [Option.mem_def.mp hb, he])
      exact lt_of_le_of_ne hb' (Ne.symm hbne)
    by_cases h2 : (yMin :: arr).getLast? = some yMax
    · rw [if_pos h2]
      exact ⟨hcons, List.head?_cons, h2⟩
    · rw [if_neg h2]
      have hglt : ∀ x ∈ (yMin :: arr).getLast?, x < yMax := by
        intro x hx
        have hx' : x ≤ yMax := by
          cases harr : arr with
          | nil =>
            rw [harr] at hx
            rw [List.getLast?_singleton, Option.mem_def, Option.some.injEq] at hx
            exact hx ▸ hle
          | cons a t =>
            rw [harr, List.getLast?_cons_cons] at hx
            exact hlast x (harr ▸ hx)
        have hxne : x ≠ yMax := by
          intro he
          exact h2 (by rw [Option.mem_def.mp hx, he])
        exact lt_of_le_of_ne hx' hxne
      refine ⟨?_, ?_, List.getLast?_concat _⟩
      · rw [List.chain'_append]
        exact ⟨hcons, List.chain'_singleton yMax,
          fun x hx y hy => by
            rw [List.head?_cons, Option.mem_def, Option.some.injEq] at hy
            exact hy ▸ hglt x hx⟩
      · rw [List.cons_append, List.head?_cons]

/-- JS `Math.round` is the identity on integers. -/
lemma jsRound_intCast (z : ℤ) : jsRound (z : ℚ) = (z : ℚ) := by
  rw [jsRound, Int.floor_int_add]
  norm_num

/-! ## Claim theorems: tick generation -/

/-- C4: for every `step ≥ 1` and `domainMin ≤ domainMax`, the `{step}` variant
of `makeTicks` returns a strictly ascending sequence whose first element is
exactly `domainMin` and whose last element is exactly `domainMax` (the
endpoints are prepended/appended only when the generated multiples of `step`
miss them, so they are never duplicated — strict ascent rules that out). -/
theorem makeTicks_step_sorted (yMin yMax s0 : ℚ) (hs : 1 ≤ s0) (hle : yMin ≤ yMax) :
    List.Chain' (· < ·) (makeTicks yMin yMax (some (.step s0))) ∧
    (makeTicks yMin yMax (some (.step s0))).head? = some yMin ∧
    (makeTicks yMin yMax (some (.step s0))).getLast? = some yMax := by
  have hs0 : (0 : ℚ) < s0 := lt_of_lt_of_le one_pos hs
  have hmax : max 1 s0 = s0 := max_eq_right hs
  have hmt : makeTicks yMin yMax (some (.step s0))
      = withEndpoints yMin yMax (stepTicks ((⌈yMin / s0⌉ : ℤ) * s0) s0 yMax) := by
    simp only [makeTicks, hmax]
  have hstart : yMin ≤ (⌈yMin / s0⌉ : ℤ) * s0 := by
    have h1 : yMin / s0 ≤ ((⌈yMin / s0⌉ : ℤ) : ℚ) := Int.le_ceil _
    have h2 : yMin / s0 * s0 ≤ ((⌈yMin / s0⌉ : ℤ) : ℚ) * s0 :=
      mul_le_mul_of_nonneg_right h1 (le_of_lt hs0)
    rwa [div_mul_cancel₀ _ (ne_of_gt hs0)] at h2
  rw [hmt]
  refine withEndpoints_spec yMin yMax _ (arithTicks_chain' s0 hs0 _ _) hle ?_ ?_
  · intro x hx
    by_cases hsy : ((⌈yMin / s0⌉ : ℤ) : ℚ) * s0 ≤ yMax
    · rw [stepTicks, stepCount, if_pos hsy, arithTicks_head?, Option.mem_def,
        Option.some.injEq] at hx
      exact hx ▸ hstart
    · rw [stepTicks, stepCount, if_neg hsy] at hx
      simp [arithTicks] at hx
  · intro x hx
    by_cases hsy : ((⌈yMin / s0⌉ : ℤ) : ℚ) * s0 ≤ yMax
    · obtain ⟨hl, hlle⟩ := stepTicks_getLast? _ s0 yMax hs0 hsy
      rw [hl, Option.mem_def, Option.some.injEq] at hx
      exact hx ▸ hlle
    · rw [stepTicks, stepCount, if_neg hsy] at hx
      simp [arithTicks] at hx

/-- Witness for C4 at `makeTicks(0, 100, {step: 20})`. -/
theorem makeTicks_step_sorted_w :
    (1 : ℚ) ≤ 20 ∧ (0 : ℚ) ≤ 100 ∧
    (List.Chain' (· < ·) (makeTicks 0 100 (some (.step 20))) ∧
      (makeTicks 0 100 (some (.step 20))).head? = some 0 ∧
      (makeTicks 0 100 (some (.step 20))).getLast? = some 100) :=
  ⟨by norm_num, by norm_num, makeTicks_step_sorted 0 100 20 (by norm_num) (by norm_num)⟩

/-- C2 (amended): for every `count ≥ 1`, the `{count}` variant of `makeTicks`
returns exactly `count + 1` values; because every emitted tick passes through
`Math.round`, the first and last elements equal `domainMin` and `domainMax`
when the domain bounds are integers (in general they are
`round(domainMin)`/`round(domainMax)` — see the counterexample with a
non-integer bound). -/
theorem makeTicks_count_endpoints :
    (∀ (yMin yMax : ℚ) (cnt : ℕ), 1 ≤ cnt →
      (makeTicks yMin yMax (some (.count (cnt : ℚ)))).length = cnt + 1) ∧
    (∀ (a b : ℤ) (cnt : ℕ), 1 ≤ cnt → (a : ℚ) ≤ (b : ℚ) →
      (makeTicks (a : ℚ) (b : ℚ) (some (.count (cnt : ℚ)))).head? = some (a : ℚ) ∧
      (makeTicks (a : ℚ) (b : ℚ) (some (.count (cnt : ℚ)))).getLast? = some (b : ℚ)) := by
  constructor
  · intro yMin yMax cnt h1
    have hfloor : ⌊(cnt : ℚ)⌋ = (cnt : ℤ) := Int.floor_natCast cnt
    have hmaxc : max 1 (cnt : ℤ) = (cnt : ℤ) := max_eq_right (by exact_mod_cast h1)
    simp only [makeTicks, hfloor, hmaxc, Int.toNat_natCast]
    simp
  · intro a b cnt h1 hab
    have hfloor : ⌊(cnt : ℚ)⌋ = (cnt : ℤ) := Int.floor_natCast cnt
    have hmaxc : max 1 (cnt : ℤ) = (cnt : ℤ) := max_eq_right (by exact_mod_cast h1)
    have hmt : makeTicks (a : ℚ) (b : ℚ) (some (.count (cnt : ℚ)))
        = (List.range (cnt + 1)).map
            (fun i : ℕ => jsRound ((a : ℚ) + ((b : ℚ) - (a : ℚ)) * (i : ℚ) / ((cnt : ℤ) : ℚ))) := by
      simp only [makeTicks, hfloor, hmaxc, Int.toNat_natCast]
    rw [hmt]
    constructor
    · rw [List.range_succ_eq_map]
      simp only [List.map_cons, List.head?_cons, Option.some.injEq, Nat.cast_zero]
      rw [mul_zero, zero_div, add_zero]
      exact jsRound_intCast a
    · rw [List.range_succ, List.map_append, List.map_cons, List.map_nil,
        List.getLast?_concat, Option.some.injEq]
      have hq : ((cnt : ℕ) : ℚ) / (((cnt : ℤ) : ℚ)) = 1 := by
        rw [show (((cnt : ℤ) : ℚ)) = ((cnt : ℕ) : ℚ) by push_cast; ring]
        exact div_self (Nat.cast_ne_zero.mpr (by omega))
      rw [mul_div_assoc, hq, mul_one, add_sub_cancel]
      exact jsRound_intCast b

/-- Witness for C2's amended theorem at `makeTicks(0, 100, {count: 5})`. -/
theorem makeTicks_count_endpoints_w :
    (makeTicks ((1 : ℚ) / 2) ((5 : ℚ) / 2) (some (.count ((5 : ℕ) : ℚ)))).length = 5 + 1 ∧
    ((makeTicks (((0 : ℤ) : ℚ)) (((100 : ℤ) : ℚ)) (some (.count ((5 : ℕ) : ℚ)))).head?
        = some (((0 : ℤ) : ℚ)) ∧
      (makeTicks (((0 : ℤ) : ℚ)) (((100 : ℤ) : ℚ)) (some (.count ((5 : ℕ) : ℚ)))).getLast?
        = some (((100 : ℤ) : ℚ))) :=
  ⟨makeTicks_count_endpoints.1 (1 / 2) (5 / 2) 5 (by norm_num),
   makeTicks_count_endpoints.2 0 100 5 (by norm_num) (by norm_num)⟩

/-- C2 counterexample: at `makeTicks(1/2, 5/2, {count: 2})` (a `count ≥ 1` and
`domainMin ≤ domainMax`) the first returned element is `round(1/2) = 1`, not
the domain minimum `1/2`, so the claim as stated is false. -/
theorem makeTicks_count_cex :
    ¬ ((makeTicks (1 / 2 : ℚ) (5 / 2) (some (.count 2))).head? = some (1 / 2 : ℚ)) := by
  have h2 : (max 1 ⌊(2 : ℚ)⌋ : ℤ) = 2 := by norm_num
  simp only [makeTicks, h2]
  rw [show ((2 : ℤ)).toNat = 2 from rfl, List.range_succ_eq_map]
  simp only [List.map_cons, List.head?_cons, Option.some.injEq, Nat.cast_zero]
  rw [mul_zero, zero_div, add_zero]
  norm_num [jsRound]

/-! ## Helper lemmas: wrapper resize debounce -/

/-- Effect of a run of resize notifications on a live (non-destroyed) wrapper:
no render happens yet, the wrapper stays live, the stored width becomes the
clamp of the last notification (or stays put if there is none), and the
debounce timer is armed exactly when it already was or some notification's
clamped width differed from the width stored when it arrived — equivalently,
from the initial width, since the stored width only ever moves on a change. -/
lemma wrapper_resizes (minW : ℚ) :
    ∀ (ws : List ℚ) (s : WrapperState), s.destroyed = false →
      ((ws.map WEvent.resize).foldl (wrapperStep minW) s).destroyed = false ∧
      ((ws.map WEvent.resize).foldl (wrapperStep minW) s).renders = s.renders ∧
      ((ws.map WEvent.resize).foldl (wrapperStep minW) s).rendersAfterDestroy
          = s.rendersAfterDestroy ∧
      ((ws.map WEvent.resize).foldl (wrapperStep minW) s).currentWidth
          = ws.foldl (fun c w => max w minW) s.currentWidth ∧
      (((ws.map WEvent.resize).foldl (wrapperStep minW) s).pending = true ↔
        (s.pending = true ∨ ∃ w ∈ ws, max w minW ≠ s.currentWidth)) := by
  intro ws
  induction ws with
  | nil => intro s hd; simp [hd]
  | cons w ws ih =>
    intro s hd
    simp only [List.map_cons, List.foldl_cons]
    by_cases hw : max w minW ≠ s.currentWidth
    · have hstep : wrapperStep minW s (.resize w)
          = { s with currentWidth := max w minW, pending := true } := by
        simp [wrapperStep, hd, hw]
      rw [hstep]
      obtain ⟨d, r, rd, cw, p⟩ := ih { s with currentWidth := max w minW, pending := true } hd
      refine ⟨d, r, rd, cw, ?_⟩
      rw [p]
      simp only [List.mem_cons]
      constructor
      · intro _; exact Or.inr ⟨w, Or.inl rfl, hw⟩
      · intro _; exact Or.inl trivial
    · have hstep : wrapperStep minW s (.resize w) = s := by
        simp [wrapperStep, hd, hw]
      rw [hstep]
      obtain ⟨d, r, rd, cw, p⟩ := ih s hd
      push_neg at hw
      refine ⟨d, r, rd, by rw [cw, hw], ?_⟩
      rw [p]
      simp only [List.mem_cons]
      constructor
      · rintro (hp | ⟨x, hx, hne⟩)
        · exact Or.inl hp
        · exact Or.inr ⟨x, Or.inr hx, hne⟩
      · rintro (hp | ⟨x, hx | hx, hne⟩)
        · exact Or.inl hp
        · exact absurd (hx ▸ hw) hne
        · exact Or.inr ⟨x, hx, hne⟩

/-- The clamp fold over a nonempty width list is the clamp of its last element. -/
lemma foldl_clamp_getLast (minW : ℚ) :
    ∀ (ws : List ℚ) (h : ws ≠ []) (c : ℚ),
      ws.foldl (fun c w => max w minW) c = max (ws.getLast h) minW := by
  intro ws
  induction ws with
  | nil => intro h; exact absurd rfl h
  | cons w ws ih =>
    intro h c
    cases ws with
    | nil => simp
    | cons y t =>
      rw [List.foldl_cons, ih (List.cons_ne_nil y t) (max w minW),
        List.getLast_cons (List.cons_ne_nil y t)]

/-! ## Claim theorems: wrapper lifecycle -/

/-- C7 (amended): any burst of resize notifications inside one 100ms
quiescence window causes AT MOST one re-render, and exactly one iff some
notification's minWidth-clamped width differs from the width stored at the
start of the window; when the render happens it uses the clamp of the LAST
notification — widths observed earlier in the window are never rendered. -/
theorem debounce_renders_last (minW w0 : ℚ) (ws : List ℚ) (h : ws ≠ []) :
    (runWrapper minW w0 (ws.map WEvent.resize ++ [WEvent.fire])).renders
        = (if ∃ w ∈ ws, max w minW ≠ w0 then [max (ws.getLast h) minW] else []) ∧
    (runWrapper minW w0 (ws.map WEvent.resize ++ [WEvent.fire])).renders.length ≤ 1 := by
  have hrun : runWrapper minW w0 (ws.map WEvent.resize ++ [WEvent.fire])
      = wrapperStep minW
          ((ws.map WEvent.resize).foldl (wrapperStep minW) ⟨w0, false, false, [], []⟩)
          WEvent.fire := by
    rw [runWrapper, List.foldl_append, List.foldl_cons, List.foldl_nil]
  obtain ⟨d, r, rd, cw, p⟩ :=
    wrapper_resizes minW ws ⟨w0, false, false, [], []⟩ rfl
  set s1 := (ws.map WEvent.resize).foldl (wrapperStep minW) ⟨w0, false, false, [], []⟩
  by_cases hex : ∃ w ∈ ws, max w minW ≠ w0
  · have hp : s1.pending = true := p.mpr (Or.inr hex)
    have hfire : wrapperStep minW s1 WEvent.fire
        = { s1 with
            pending := false
            renders := s1.renders ++ [s1.currentWidth]
            rendersAfterDestroy :=
              s1.rendersAfterDestroy ++ (if s1.destroyed then [s1.currentWidth] else []) } := by
      simp [wrapperStep, hp]
    rw [hrun, hfire, if_pos hex]
    constructor
    · show s1.renders ++ [s1.currentWidth] = [max (ws.getLast h) minW]
      rw [r, cw, foldl_clamp_getLast minW ws h]
      rfl
    · show (s1.renders ++ [s1.currentWidth]).length ≤ 1
      rw [r]
      rfl
  · have hp : s1.pending = false := by
      cases hp1 : s1.pending with
      | false => rfl
      | true => exact absurd (p.mp hp1) (by simpa using hex)
    have hfire : wrapperStep minW s1 WEvent.fire = s1 := by
      simp [wrapperStep, hp]
    rw [hrun, hfire, if_neg hex]
    rw [r]
    exact ⟨rfl, by norm_num⟩

/-- Witness for C7's amended theorem: the spec's own burst 500→480→450 on a
wrapper whose stored width is 640 (`minWidth` 320) renders once, at 450. -/
theorem debounce_renders_last_w :
    (runWrapper 320 640 (([500, 480, 450] : List ℚ).map WEvent.resize
        ++ [WEvent.fire])).renders = [(450 : ℚ)] := by
  rw [(debounce_renders_last 320 640 [500, 480, 450] (by simp)).1]
  rw [if_pos ⟨500, by simp, by norm_num⟩]
  norm_num

/-- C7 counterexample: two notifications with distinct widths (300 and 310)
that both clamp to the stored width 320 produce ZERO re-renders, not exactly
one, so the claim as stated is false. -/
theorem debounce_renders_cex :
    ¬ ((runWrapper 320 320 [.resize 300, .resize 310, .fire]).renders.length = 1) := by
  decide

/-- C1 (the code violates it): `destroy()` disconnects the ResizeObserver and
clears the container but never calls `clearTimeout` on the pending debounce
timer (`resizeTimer` is not even in scope inside `destroy`).  A resize
notification that arms the timer, followed by `destroy()` within the 100ms
window, still leads to `doRender()` running and invoking the draw callback
after `destroy()` returned: the model renders width 500 after destruction. -/
theorem destroy_pending_timer_renders :
    (runWrapper 320 640 [.resize 500, .destroy, .fire]).rendersAfterDestroy = [(500 : ℚ)]
      ∧ (runWrapper 320 640 [.resize 500, .destroy, .fire]).destroyed = true := by
  decide

/-! ## Helper lemmas: pie slices -/

lemma validData_eq (data : List PieDatum) :
    validData data
      = (data.filter (fun d => 0 < clampValue d.value)).map
          (fun d => (d.label, clampValue d.value)) := by
  rw [validData, List.filter_map]
  rfl

lemma foldl_add_snd :
    ∀ (l : List (String × ℚ)) (init : ℚ),
      l.foldl (fun acc p => acc + p.2) init = init + (l.map Prod.snd).sum := by
  intro l
  induction l with
  | nil => intro init; simp
  | cons p t ih =>
    intro init
    rw [List.foldl_cons, ih (init + p.2), List.map_cons, List.sum_cons]
    ring

lemma validData_mem_pos (data : List PieDatum) (p : String × ℚ)
    (hp : p ∈ validData data) : 0 < p.2 := by
  rw [validData, List.mem_filter] at hp
  exact of_decide_eq_true hp.2

lemma pieTotal_pos (data : List PieDatum) (h : validData data ≠ []) :
    0 < pieTotal data := by
  rw [pieTotal, foldl_add_snd, zero_add]
  apply List.sum_pos
  · intro x hx
    obtain ⟨p, hp, rfl⟩ := List.mem_map.mp hx
    exact validData_mem_pos data p hp
  · simpa using h

lemma buildSlices_labels (total : ℚ) :
    ∀ (l : List (String × ℚ)) (angle : ℚ),
      (buildSlices total angle l).map Slice.label = l.map Prod.fst := by
  intro l
  induction l with
  | nil => intro angle; rfl
  | cons p t ih =>
    intro angle
    cases p with
    | mk lab v => simp only [buildSlices, List.map_cons, ih]

/-! ## Claim theorems: pie slices -/

/-- C9: the pie render clamps non-finite and negative values to `0` and keeps
only records with a positive clamped value (so the slice labels are exactly
the labels of those records); on `[{A, 0}, {B, 50}]` only `B` yields a slice,
spanning the full circle — from the 12-o'clock angle `-π/2` (here `-1/2` in
units of π) to `3π/2`, a span of `2π`; and when no value is positive the slice
list is empty and the placeholder circle is drawn (no error is raised: the
computation is total). -/
theorem pieSlices_spec :
    (∀ q : ℚ, q < 0 → clampValue (.fin q) = 0) ∧
    clampValue .nan = 0 ∧
    clampValue .inf = 0 ∧
    clampValue .ninf = 0 ∧
    (∀ data : List PieDatum,
      (pieSlices data).map Slice.label
        = (data.filter (fun d => 0 < clampValue d.value)).map PieDatum.label) ∧
    pieSlices [⟨"A", .fin 0⟩, ⟨"B", .fin 50⟩]
      = [⟨"B", 50, -(1 / 2), 3 / 2, 1⟩] ∧
    (∀ data : List PieDatum, (∀ d ∈ data, clampValue d.value = 0) →
      pieSlices data = [] ∧ pieScene data = .emptyRing) := by
  refine ⟨fun q hq => max_eq_left (le_of_lt hq), rfl, rfl, rfl, ?_, ?_, ?_⟩
  · intro data
    by_cases hvd : validData data = []
    · have hcond : ¬ (0 < (validData data).length ∧ 0 < pieTotal data) := by
        rw [hvd]
        simp
      have hfil : data.filter (fun d => 0 < clampValue d.value) = [] := by
        have h1 := validData_eq data
        rw [hvd] at h1
        exact (List.map_eq_nil_iff.mp h1.symm)
      rw [pieSlices, if_neg hcond, hfil]
      rfl
    · have ht := pieTotal_pos data hvd
      rw [pieSlices, if_pos ⟨List.length_pos.mpr hvd, ht⟩,
        buildSlices_labels (pieTotal data) (validData data) (-(1 / 2)),
        validData_eq data, List.map_map]
      rfl
  · norm_num [pieSlices, validData, pieTotal, buildSlices, clampValue, Slice.mk.injEq]
  · intro data hz
    have hfil : data.filter (fun d => 0 < clampValue d.value) = [] := by
      apply List.filter_eq_nil_iff.mpr
      intro d hd
      simp [hz d hd]
    have hvd : validData data = [] := by
      rw [validData_eq, hfil, List.map_nil]
    have hslices : pieSlices data = [] := by
      rw [pieSlices]
      apply if_neg
      rw [hvd]
      simp
    exact ⟨hslices, by simp [pieScene, hslices]⟩

/-- Witness for C9: a negative value is clamped to 0, and with no positive
values (`A` has value 0, `C` is NaN) the slice list is empty and the
placeholder circle is drawn. -/
theorem pieSlices_spec_w :
    clampValue (.fin (-3)) = 0 ∧
    (pieSlices [⟨"A", .fin 0⟩, ⟨"C", .nan⟩] = [] ∧
      pieScene [⟨"A", .fin 0⟩, ⟨"C", .nan⟩] = .emptyRing) :=
  ⟨pieSlices_spec.1 (-3) (by norm_num),
   pieSlices_spec.2.2.2.2.2.2 [⟨"A", .fin 0⟩, ⟨"C", .nan⟩] (by decide)⟩

end VanillaCharts
